import Mathlib

/-!
Verification of the nefit-go client library.

Go strings are modelled as `List Char` (all protocol text is ASCII) and Go
byte slices as `List Nat` with every entry below 256.  The Go standard
library collaborators that the repository calls out to (the AES-256 block
cipher from crypto/aes, MD5 from crypto/md5 and JSON decoding from
encoding/json) are taken as parameters of the embedded functions, with their
documented contracts as hypotheses where a theorem needs them.  The base64
codec (encoding/base64, standard alphabet with padding), hex decoding
(encoding/hex) and the XML character-data decoding performed by
encoding/xml are embedded concretely, restricted to the ASCII inputs this
protocol produces.
-/

namespace Nefit

/-- Validity of a modelled Go byte slice: every entry is an actual byte. -/
def ValidBytes (l : List Nat) : Prop := ∀ b ∈ l, b < 256

instance : DecidablePred ValidBytes := fun l =>
  List.decidableBAll (fun b => b < 256) l

/-! ## Base64 (encoding/base64, StdEncoding) -/

/-- Standard base64 alphabet used by Go encoding/base64 StdEncoding. -/
def b64alphabet : List Char :=
  "ABCDEFGHIJKLMNOPQRSTUVWXYZabcdefghijklmnopqrstuvwxyz0123456789+/".toList

/-- Character for a six-bit value. -/
def b64char (n : Nat) : Char := b64alphabet.getD n 'A'

/-- Index of a character in a list, if present. -/
def findIdxFrom (c : Char) : List Char → Option Nat
  | [] => none
  | a :: rest => if a = c then some 0 else (findIdxFrom c rest).map (· + 1)

/-- Six-bit value of a base64 character, if it is in the alphabet. -/
def sextetOf (c : Char) : Option Nat := findIdxFrom c b64alphabet

/-- Encoding of one full three-byte quantum. -/
def enc3 (a b c : Nat) : List Char :=
  [b64char (a / 4), b64char ((a % 4) * 16 + b / 16),
   b64char ((b % 16) * 4 + c / 64), b64char (c % 64)]

/-- Base64 encoding of a byte sequence, standard padding, as in Go
EncodeToString. -/
def encodeB64 : List Nat → List Char
  | a :: b :: c :: rest => enc3 a b c ++ encodeB64 rest
  | [a, b] => [b64char (a / 4), b64char ((a % 4) * 16 + b / 16),
               b64char ((b % 16) * 4), '=']
  | [a] => [b64char (a / 4), b64char ((a % 4) * 16), '=', '=']
  | [] => []

/-- First byte of a decoded quantum. -/
def dec2 (s0 s1 : Nat) : Nat := s0 * 4 + s1 / 16

/-- Second byte of a decoded quantum. -/
def dec3mid (s1 s2 : Nat) : Nat := (s1 % 16) * 16 + s2 / 4

/-- Third byte of a decoded quantum. -/
def dec4last (s2 s3 : Nat) : Nat := (s2 % 4) * 64 + s3

/-- Base64 decoding of four-character groups; padding is permitted only in
the final group, as in Go DecodeString.  Like Go StdEncoding (non-strict)
the unused trailing bits of a final partial quantum are discarded without
being checked. -/
def decodeB64Core : List Char → Option (List Nat)
  | [] => some []
  | c0 :: c1 :: c2 :: c3 :: rest =>
    match sextetOf c0, sextetOf c1 with
    | some s0, some s1 =>
      if rest = [] ∧ c2 = '=' ∧ c3 = '=' then
        some [dec2 s0 s1]
      else if rest = [] ∧ c3 = '=' then
        match sextetOf c2 with
        | some s2 => some [dec2 s0 s1, dec3mid s1 s2]
        | none => none
      else
        match sextetOf c2, sextetOf c3 with
        | some s2, some s3 =>
          (decodeB64Core rest).map
            (fun tail => dec2 s0 s1 :: dec3mid s1 s2 :: dec4last s2 s3 :: tail)
        | _, _ => none
    | _, _ => none
  | _ => none

/-- Character filter of Go DecodeString: carriage returns and newlines are
ignored wherever they occur. -/
def notCRLF (c : Char) : Bool := !(c = '\r' || c = '\n')

/-- Base64 decoding as in Go base64.StdEncoding.DecodeString. -/
def decodeB64 (l : List Char) : Option (List Nat) :=
  decodeB64Core (l.filter notCRLF)

theorem sextetOf_b64char : ∀ n < 64, sextetOf (b64char n) = some n := by decide

theorem b64char_ne_pad : ∀ n < 64, b64char n ≠ '=' := by decide

theorem notCRLF_b64char : ∀ n < 64, notCRLF (b64char n) = true := by decide

theorem b64char_ne_cr : ∀ n < 64, b64char n ≠ '\r' := by decide

theorem b64char_ne_lf : ∀ n < 64, b64char n ≠ '\n' := by decide

theorem encodeB64_eq_nil : ∀ l : List Nat, encodeB64 l = [] ↔ l = [] := by
  intro l
  match l with
  | [] => simp [encodeB64]
  | [a] => simp [encodeB64]
  | [a, b] => simp [encodeB64]
  | a :: b :: c :: rest => simp [encodeB64, enc3]

theorem filter_encodeB64 (l : List Nat) (h : ValidBytes l) :
    (encodeB64 l).filter notCRLF = encodeB64 l := by
  induction l using encodeB64.induct with
  | case1 a b c rest ih =>
    have ha : a < 256 := h a (by simp)
    have hb : b < 256 := h b (by simp)
    have hc : c < 256 := h c (by simp)
    have ih' := ih (fun x hx => h x (by simp [hx]))
    have e0 := notCRLF_b64char (a / 4) (by omega)
    have e1 := notCRLF_b64char ((a % 4) * 16 + b / 16) (by omega)
    have e2 := notCRLF_b64char ((b % 16) * 4 + c / 64) (by omega)
    have e3 := notCRLF_b64char (c % 64) (by omega)
    simp [encodeB64, enc3, List.filter_append, List.filter_cons, e0, e1, e2, e3, ih']
  | case2 a b =>
    have ha : a < 256 := h a (by simp)
    have hb : b < 256 := h b (by simp)
    have c0 := b64char_ne_cr (a / 4) (by omega)
    have c1 := b64char_ne_cr ((a % 4) * 16 + b / 16) (by omega)
    have c2 := b64char_ne_cr ((b % 16) * 4) (by omega)
    have l0 := b64char_ne_lf (a / 4) (by omega)
    have l1 := b64char_ne_lf ((a % 4) * 16 + b / 16) (by omega)
    have l2 := b64char_ne_lf ((b % 16) * 4) (by omega)
    have p0 : ('=' : Char) ≠ '\r' := by decide
    have p1 : ('=' : Char) ≠ '\n' := by decide
    simp [encodeB64, List.filter_cons, notCRLF, c0, c1, c2, l0, l1, l2, p0, p1]
  | case3 a =>
    have ha : a < 256 := h a (by simp)
    have c0 := b64char_ne_cr (a / 4) (by omega)
    have c1 := b64char_ne_cr ((a % 4) * 16) (by omega)
    have l0 := b64char_ne_lf (a / 4) (by omega)
    have l1 := b64char_ne_lf ((a % 4) * 16) (by omega)
    have p0 : ('=' : Char) ≠ '\r' := by decide
    have p1 : ('=' : Char) ≠ '\n' := by decide
    simp [encodeB64, List.filter_cons, notCRLF, c0, c1, l0, l1, p0, p1]
  | case4 => simp [encodeB64]

theorem decodeB64Core_encodeB64 (l : List Nat) (h : ValidBytes l) :
    decodeB64Core (encodeB64 l) = some l := by
  induction l using encodeB64.induct with
  | case1 a b c rest ih =>
    have ha : a < 256 := h a (by simp)
    have hb : b < 256 := h b (by simp)
    have hc : c < 256 := h c (by simp)
    have ih' := ih (fun x hx => h x (by simp [hx]))
    simp only [encodeB64, enc3, List.cons_append, List.nil_append]
    rw [decodeB64Core]
    rw [sextetOf_b64char _ (by omega), sextetOf_b64char _ (by omega)]
    simp only
    rcases Decidable.em (rest = []) with hrest | hrest
    · subst hrest
      simp only [encodeB64]
      have h2 := b64char_ne_pad ((b % 16) * 4 + c / 64) (by omega)
      have h3 := b64char_ne_pad (c % 64) (by omega)
      rw [if_neg (by simp [h2]), if_neg (by simp [h3])]
      rw [sextetOf_b64char _ (by omega), sextetOf_b64char _ (by omega)]
      simp only [decodeB64Core, Option.map_some']
      congr 1
      simp [dec2, dec3mid, dec4last]
      omega
    · have hne : encodeB64 rest ≠ [] := by
        intro hx; exact hrest ((encodeB64_eq_nil rest).mp hx)
      rw [if_neg (by simp [hne]), if_neg (by simp [hne])]
      rw [sextetOf_b64char _ (by omega), sextetOf_b64char _ (by omega)]
      simp only [ih', Option.map_some']
      congr 1
      congr 1
      · simp [dec2]; omega
      · congr 1
        · simp [dec3mid]; omega
        · congr 1
          simp [dec4last]; omega
  | case2 a b =>
    have ha : a < 256 := h a (by simp)
    have hb : b < 256 := h b (by simp)
    simp only [encodeB64]
    rw [decodeB64Core]
    rw [sextetOf_b64char _ (by omega), sextetOf_b64char _ (by omega)]
    simp only
    have h2 := b64char_ne_pad ((b % 16) * 4) (by omega)
    rw [if_neg (by simp [h2])]
    rw [if_pos (by simp)]
    rw [sextetOf_b64char _ (by omega)]
    simp only
    congr 1
    simp [dec2, dec3mid]
    omega
  | case3 a =>
    have ha : a < 256 := h a (by simp)
    simp only [encodeB64]
    rw [decodeB64Core]
    rw [sextetOf_b64char _ (by omega), sextetOf_b64char _ (by omega)]
    simp only
    rw [if_pos (by simp)]
    congr 1
    simp [dec2]
    omega
  | case4 => simp [encodeB64, decodeB64Core]

/-- Round trip of the base64 codec on genuine byte sequences. -/
theorem decodeB64_encodeB64 (l : List Nat) (h : ValidBytes l) :
    decodeB64 (encodeB64 l) = some l := by
  rw [decodeB64, filter_encodeB64 l h, decodeB64Core_encodeB64 l h]

/-! ## Encryption engine (crypto package, Encryptor) -/

/-- Failure cases of the Go crypto functions. -/
inductive CryptoErr
  | cipherErr
  | base64Err
deriving DecidableEq, Repr

/-- Outcome of a Go crypto function: a normal return value, an error return,
or a runtime panic (out-of-range slice). -/
inductive CryptoResult (α : Type)
  | ok (a : α)
  | err (e : CryptoErr)
  | panic
deriving DecidableEq, Repr

/-- Key-length check of Go aes.NewCipher: only 16, 24 or 32 byte keys are
accepted. -/
def validAesKeyLen (key : List Nat) : Bool :=
  key.length = 16 || key.length = 24 || key.length = 32

/-- Padding applied by Encrypt: `padding := 16 - len % 16`, appended only
when `0 < padding < 16` (so a length that is already a multiple of 16,
including zero, gets no padding). -/
def pad16 (l : List Nat) : List Nat :=
  let padding := 16 - l.length % 16
  if 0 < padding ∧ padding < 16 then l ++ List.replicate padding 0 else l

/-- Padding applied by Decrypt before the block loop: when the decoded
length is not a multiple of 8 the code appends `len % 8` zero bytes. -/
def decryptPad (l : List Nat) : List Nat :=
  let paddingLength := l.length % 8
  if paddingLength ≠ 0 then l ++ List.replicate paddingLength 0 else l

/-- Fuel-bounded form of the 16-byte block loop; the fuel only bounds the
recursion and is always supplied as the buffer length, which exceeds the
number of blocks. -/
def cryptBlocksAux (f : List Nat → List Nat) : Nat → List Nat → CryptoResult (List Nat)
  | _, [] => .ok []
  | fuel + 1, l =>
    if 16 ≤ l.length then
      match cryptBlocksAux f fuel (l.drop 16) with
      | .ok rest => .ok (f (l.take 16) ++ rest)
      | r => r
    else .panic
  | 0, _ => .panic

/-- Block loop of Encrypt/Decrypt: process the buffer in 16-byte slices
`buf[i:i+16]`; slicing past the end of the buffer is a Go runtime panic. -/
def cryptBlocks (f : List Nat → List Nat) (l : List Nat) :
    CryptoResult (List Nat) :=
  cryptBlocksAux f l.length l

theorem cryptBlocksAux_nil (f : List Nat → List Nat) (fuel : Nat) :
    cryptBlocksAux f fuel [] = .ok [] := by
  cases fuel <;> rfl

theorem cryptBlocksAux_fuel (f : List Nat → List Nat) :
    ∀ fuel₁ fuel₂ l, l.length ≤ fuel₁ → l.length ≤ fuel₂ →
      cryptBlocksAux f fuel₁ l = cryptBlocksAux f fuel₂ l := by
  intro fuel₁
  induction fuel₁ with
  | zero =>
    intro fuel₂ l h1 _
    have : l = [] := List.eq_nil_of_length_eq_zero (by omega)
    subst this
    rw [cryptBlocksAux_nil, cryptBlocksAux_nil]
  | succ n ih =>
    intro fuel₂ l h1 h2
    cases l with
    | nil => rw [cryptBlocksAux_nil, cryptBlocksAux_nil]
    | cons x xs =>
      cases fuel₂ with
      | zero => simp at h2
      | succ m =>
        show cryptBlocksAux f (n + 1) (x :: xs) = cryptBlocksAux f (m + 1) (x :: xs)
        simp only [List.length_cons] at h1 h2
        have hd : ((x :: xs).drop 16).length ≤ n := by
          simp only [List.length_drop, List.length_cons]
          omega
        have hd2 : ((x :: xs).drop 16).length ≤ m := by
          simp only [List.length_drop, List.length_cons]
          omega
        rw [cryptBlocksAux, cryptBlocksAux, ih m _ hd hd2]
        all_goals simp

/-- Encryptor state: the derived 32-byte key. -/
structure Encryptor where
  key : List Nat
deriving DecidableEq, Repr

/-- Encrypt: AES-256-ECB over zero-padded 16-byte blocks, base64-encoded.
The block permutation `encB` stands for the crypto/aes cipher obtained from
the key. -/
def Encrypt (encB : List Nat → List Nat) (e : Encryptor) (data : List Nat) :
    CryptoResult (List Char) :=
  if validAesKeyLen e.key then
    match cryptBlocks encB (pad16 data) with
    | .ok ct => .ok (encodeB64 ct)
    | .err x => .err x
    | .panic => .panic
  else .err .cipherErr

/-- Decrypt: base64-decode, apply the legacy zero padding, then run the
16-byte block loop with the inverse permutation `decB`. -/
def Decrypt (decB : List Nat → List Nat) (e : Encryptor) (data : List Char) :
    CryptoResult (List Nat) :=
  if validAesKeyLen e.key then
    match decodeB64 data with
    | none => .err .base64Err
    | some ciphertext => cryptBlocks decB (decryptPad ciphertext)
  else .err .cipherErr

/-- Trailing-zero stripping of DecryptAndStrip: scan from the end for the
first nonzero byte and cut after it; when every byte is zero the whole
(unstripped) buffer is returned. -/
def goStripTrailingZeros (l : List Nat) : List Nat :=
  let r := l.reverse.dropWhile (fun b => b == 0)
  if r = [] then l else r.reverse

/-- DecryptAndStrip: Decrypt, then strip trailing zero padding. -/
def DecryptAndStrip (decB : List Nat → List Nat) (e : Encryptor)
    (data : List Char) : CryptoResult (List Nat) :=
  match Decrypt decB e data with
  | .ok p => .ok (goStripTrailingZeros p)
  | .err x => .err x
  | .panic => .panic

/-- Composition checked by the repository round-trip tests. -/
def roundTrip (encB decB : List Nat → List Nat) (e : Encryptor)
    (P : List Nat) : CryptoResult (List Nat) :=
  match Encrypt encB e P with
  | .ok ct => DecryptAndStrip decB e ct
  | .err x => .err x
  | .panic => .panic

/-- Magic protocol constant, as the hex string literal of the source. -/
def magicHexChars : List Char :=
  "58f18d70f667c9c79ef7de435bf0f9b1553bbb6e61816212ab80e5b0d351fbb1".toList

/-- Value of one hex digit, as in encoding/hex. -/
def hexDigitVal (c : Char) : Option Nat :=
  if '0' ≤ c ∧ c ≤ '9' then some (c.toNat - 48)
  else if 'a' ≤ c ∧ c ≤ 'f' then some (c.toNat - 87)
  else if 'A' ≤ c ∧ c ≤ 'F' then some (c.toNat - 55)
  else none

/-- Hex decoding as in encoding/hex.DecodeString. -/
def hexDecode : List Char → Option (List Nat)
  | [] => some []
  | [_] => none
  | c1 :: c2 :: rest => do
    let hi ← hexDigitVal c1
    let lo ← hexDigitVal c2
    let r ← hexDecode rest
    pure ((hi * 16 + lo) :: r)

/-- Semantics of Go `copy(dst[:16], src)` into a fresh zeroed 16-byte
slice. -/
def copy16 (src : List Nat) : List Nat :=
  src.take 16 ++ List.replicate (16 - src.length) 0

/-- Key derivation: two 16-byte MD5 digests copied into a 32-byte key.  The
`md5f` parameter stands for crypto/md5 applied to a whole written stream. -/
def generateKey (md5f : List Nat → List Nat)
    (magic accessKey password : List Nat) : List Nat :=
  copy16 (md5f (accessKey ++ magic)) ++ copy16 (md5f (magic ++ password))

/-- Decoded value of the magic hex constant. -/
def magicBytes : List Nat :=
  [0x58, 0xf1, 0x8d, 0x70, 0xf6, 0x67, 0xc9, 0xc7,
   0x9e, 0xf7, 0xde, 0x43, 0x5b, 0xf0, 0xf9, 0xb1,
   0x55, 0x3b, 0xbb, 0x6e, 0x61, 0x81, 0x62, 0x12,
   0xab, 0x80, 0xe5, 0xb0, 0xd3, 0x51, 0xfb, 0xb1]

/-- NewEncryptor: decode the magic constant and derive the key.  The serial
number is accepted and ignored. -/
def NewEncryptor (md5f : List Nat → List Nat)
    (_serialNumber accessKey password : List Nat) : Option Encryptor :=
  (hexDecode magicHexChars).map
    (fun magic => Encryptor.mk (generateKey md5f magic accessKey password))

theorem hexDecode_magic : hexDecode magicHexChars = some magicBytes := by decide

/-- Contract of the crypto/aes block cipher for a fixed key: encryption and
decryption are mutually inverse 16-byte block permutations over bytes. -/
def CipherContract (encB decB : List Nat → List Nat) : Prop :=
  ∀ b : List Nat, b.length = 16 → ValidBytes b →
    (encB b).length = 16 ∧ ValidBytes (encB b) ∧ decB (encB b) = b

theorem pad16_mod (l : List Nat) : (pad16 l).length % 16 = 0 := by
  unfold pad16
  by_cases h : 0 < 16 - l.length % 16 ∧ 16 - l.length % 16 < 16
  · rw [if_pos h]
    simp only [List.length_append, List.length_replicate]
    omega
  · rw [if_neg h]
    omega

theorem pad16_append (l : List Nat) : ∃ k, pad16 l = l ++ List.replicate k 0 := by
  unfold pad16
  by_cases h : 0 < 16 - l.length % 16 ∧ 16 - l.length % 16 < 16
  · exact ⟨16 - l.length % 16, by rw [if_pos h]⟩
  · exact ⟨0, by rw [if_neg h]; simp⟩

theorem pad16_valid (l : List Nat) (h : ValidBytes l) : ValidBytes (pad16 l) := by
  obtain ⟨k, hk⟩ := pad16_append l
  rw [hk]
  intro b hb
  rcases List.mem_append.mp hb with hb | hb
  · exact h b hb
  · have := List.eq_of_mem_replicate hb
    omega

theorem decryptPad_of_mod8 (l : List Nat) (h : l.length % 8 = 0) :
    decryptPad l = l := by
  unfold decryptPad
  simp [h]

theorem cryptBlocks_nil (f : List Nat → List Nat) : cryptBlocks f [] = .ok [] := rfl

theorem cryptBlocks_append16 (f : List Nat → List Nat) (b rest : List Nat)
    (hb : b.length = 16) :
    cryptBlocks f (b ++ rest) =
      match cryptBlocks f rest with
      | .ok m => .ok (f b ++ m)
      | r => r := by
  cases b with
  | nil => simp at hb
  | cons x xs =>
    have hxl : (x :: (xs ++ rest)).length = (xs ++ rest).length + 1 := by simp
    have step : cryptBlocks f ((x :: xs) ++ rest) =
        cryptBlocksAux f ((xs ++ rest).length + 1) (x :: (xs ++ rest)) := by
      rw [cryptBlocks]
      simp only [List.cons_append, hxl]
    rw [step, cryptBlocksAux]
    have hlen : 16 ≤ (x :: (xs ++ rest)).length := by
      simp at hb ⊢
      omega
    rw [if_pos hlen]
    have hdrop : (x :: (xs ++ rest)).drop 16 = rest := by
      have := @List.drop_left' _ _ rest _ hb
      simpa using this
    have htake : (x :: (xs ++ rest)).take 16 = x :: xs := by
      have := @List.take_left' _ _ rest _ hb
      simpa using this
    rw [hdrop, htake]
    have hfuel : cryptBlocksAux f ((xs ++ rest).length) rest =
        cryptBlocks f rest := by
      rw [cryptBlocks]
      exact cryptBlocksAux_fuel f _ _ rest (by simp) (le_refl _)
    rw [hfuel]
    all_goals simp

theorem cryptBlocks_roundtrip (encB decB : List Nat → List Nat)
    (hc : CipherContract encB decB) :
    ∀ n l, l.length = n → l.length % 16 = 0 → ValidBytes l →
      ∃ m, cryptBlocks encB l = .ok m ∧ m.length = l.length ∧ ValidBytes m ∧
        cryptBlocks decB m = .ok l := by
  intro n
  induction n using Nat.strong_induction_on with
  | _ n ih =>
    intro l hn hmod hv
    by_cases hnil : l = []
    · subst hnil
      exact ⟨[], cryptBlocks_nil _, rfl, by intro b hb; simp at hb, cryptBlocks_nil _⟩
    · have hlpos : l.length ≠ 0 := by simpa using hnil
      have hlen : 16 ≤ l.length := by omega
      have hsplit : l.take 16 ++ l.drop 16 = l := List.take_append_drop 16 l
      have hbl : (l.take 16).length = 16 := by
        rw [List.length_take]; omega
      have hrl : (l.drop 16).length = l.length - 16 := List.length_drop 16 l
      have hvb : ValidBytes (l.take 16) := fun x hx => hv x (List.mem_of_mem_take hx)
      have hvr : ValidBytes (l.drop 16) := fun x hx => hv x (List.mem_of_mem_drop hx)
      obtain ⟨m', hm1, hm2, hm3, hm4⟩ :=
        ih (l.drop 16).length (by omega) (l.drop 16) rfl (by omega) hvr
      obtain ⟨he1, he2, he3⟩ := hc (l.take 16) hbl hvb
      refine ⟨encB (l.take 16) ++ m', ?_, ?_, ?_, ?_⟩
      · conv_lhs => rw [← hsplit]
        rw [cryptBlocks_append16 encB _ _ hbl, hm1]
      · simp [he1, hm2]; omega
      · intro x hx
        rcases List.mem_append.mp hx with hx | hx
        · exact he2 x hx
        · exact hm3 x hx
      · rw [cryptBlocks_append16 decB _ _ he1, hm4, he3]
        simp [hsplit]

theorem dropWhile_zeros_append (k : Nat) (x : List Nat) :
    (List.replicate k 0 ++ x).dropWhile (fun b => b == 0) =
      x.dropWhile (fun b => b == 0) := by
  induction k with
  | zero => simp
  | succ k ih => simp [List.replicate_succ, List.dropWhile, ih]

theorem goStrip_concat_nonzero (q : List Nat) (a : Nat) (ha : a ≠ 0) (k : Nat) :
    goStripTrailingZeros ((q ++ [a]) ++ List.replicate k 0) = q ++ [a] := by
  unfold goStripTrailingZeros
  have hrev : ((q ++ [a]) ++ List.replicate k 0).reverse =
      List.replicate k 0 ++ (a :: q.reverse) := by
    simp [List.reverse_append]
  rw [hrev, dropWhile_zeros_append]
  have hdw : (a :: q.reverse).dropWhile (fun b => b == 0) = a :: q.reverse := by
    rw [List.dropWhile_cons_of_neg (by simpa using ha)]
  simp only [hdw]
  rw [if_neg (by simp)]
  simp

/-- Structure of the encrypt-then-decrypt round trip: under the cipher
contract, DecryptAndStrip of Encrypt is the zero-padded plaintext with the
trailing-zero stripping rule applied. -/
theorem roundTrip_eq (encB decB : List Nat → List Nat) (e : Encryptor)
    (P : List Nat) (hc : CipherContract encB decB)
    (hkey : validAesKeyLen e.key = true) (hP : ValidBytes P) :
    roundTrip encB decB e P = .ok (goStripTrailingZeros (pad16 P)) := by
  obtain ⟨m, hm1, hm2, hm3, hm4⟩ :=
    cryptBlocks_roundtrip encB decB hc (pad16 P).length (pad16 P) rfl
      (pad16_mod P) (pad16_valid P hP)
  have hdec : decodeB64 (encodeB64 m) = some m := decodeB64_encodeB64 m hm3
  have hpadm : decryptPad m = m := by
    apply decryptPad_of_mod8
    have := pad16_mod P
    omega
  simp only [roundTrip, Encrypt, DecryptAndStrip, Decrypt, hkey, if_true, hm1,
    hdec, hpadm, hm4]

/-- Identity block permutation: a concrete instance of the cipher contract,
used to instantiate theorems at evaluable inputs. -/
def idBlock (b : List Nat) : List Nat := b

theorem idBlock_contract : CipherContract idBlock idBlock :=
  fun _ hb hv => ⟨hb, hv, rfl⟩

/-- Concrete encryptor with a well-formed 32-byte key. -/
def testEncryptor : Encryptor := Encryptor.mk (List.replicate 32 0)

theorem cryptBlocks_short (f : List Nat → List Nat) (l : List Nat)
    (h1 : l ≠ []) (h2 : l.length < 16) : cryptBlocks f l = .panic := by
  cases l with
  | nil => exact absurd rfl h1
  | cons x xs =>
    rw [cryptBlocks]
    simp only [List.length_cons]
    rw [cryptBlocksAux]
    · rw [if_neg (by simp only [List.length_cons] at h2 ⊢; omega)]
    · simp

theorem cryptBlocks_classify (f : List Nat → List Nat) :
    ∀ n l, l.length = n →
      (l.length % 16 = 0 → ∃ m, cryptBlocks f l = .ok m) ∧
      (l.length % 16 ≠ 0 → cryptBlocks f l = .panic) := by
  intro n
  induction n using Nat.strong_induction_on with
  | _ n ih =>
    intro l hn
    constructor
    · intro hmod
      by_cases hnil : l = []
      · exact ⟨[], by rw [hnil]; exact cryptBlocks_nil f⟩
      · have hlpos : l.length ≠ 0 := by simpa using hnil
        have h16 : 16 ≤ l.length := by omega
        have hbl : (l.take 16).length = 16 := by rw [List.length_take]; omega
        obtain ⟨m, hm⟩ := (ih (l.drop 16).length
          (by simp only [List.length_drop]; omega) (l.drop 16) rfl).1
          (by simp only [List.length_drop]; omega)
        refine ⟨f (l.take 16) ++ m, ?_⟩
        conv_lhs => rw [← List.take_append_drop 16 l]
        rw [cryptBlocks_append16 f _ _ hbl, hm]
    · intro hmod
      have hnil : l ≠ [] := by
        intro h
        rw [h] at hmod
        simp at hmod
      by_cases h16 : 16 ≤ l.length
      · have hbl : (l.take 16).length = 16 := by rw [List.length_take]; omega
        have hp := (ih (l.drop 16).length
          (by simp only [List.length_drop]; omega) (l.drop 16) rfl).2
          (by simp only [List.length_drop]; omega)
        conv_lhs => rw [← List.take_append_drop 16 l]
        rw [cryptBlocks_append16 f _ _ hbl, hp]
      · exact cryptBlocks_short f l hnil (by omega)

/-- C1 counterexample: with a valid instance of the block cipher contract
and a well-formed key, the plaintext [97, 0] (a letter followed by a
trailing zero byte) does not survive the round trip: the stripping step
removes the zero byte. -/
theorem C1_counterexample :
    CipherContract idBlock idBlock ∧
    validAesKeyLen testEncryptor.key = true ∧
    ValidBytes [97, 0] ∧
    roundTrip idBlock idBlock testEncryptor [97, 0] = .ok [97] ∧
    roundTrip idBlock idBlock testEncryptor [97, 0] ≠ .ok [97, 0] :=
  ⟨idBlock_contract, by decide, by decide, by decide, by decide⟩

/-- C1 (amended): for every plaintext that is empty or does not end in a
zero byte, DecryptAndStrip of Encrypt returns the plaintext unchanged,
for any block cipher satisfying the crypto/aes contract and any
well-formed key.  (Plaintexts ending in a zero byte come back with their
trailing zero bytes stripped instead.) -/
theorem C1_roundtrip (encB decB : List Nat → List Nat) (e : Encryptor)
    (P : List Nat) (hc : CipherContract encB decB)
    (hkey : validAesKeyLen e.key = true) (hP : ValidBytes P)
    (hlast : P.getLast? ≠ some 0) :
    roundTrip encB decB e P = .ok P := by
  rw [roundTrip_eq encB decB e P hc hkey hP]
  rcases List.eq_nil_or_concat P with hnil | ⟨q, a, hqa⟩
  · subst hnil
    rfl
  · subst hqa
    rw [List.concat_eq_append]
    have ha : a ≠ 0 := by
      intro h
      subst h
      exact hlast (by simp)
    obtain ⟨k, hk⟩ := pad16_append (q ++ [a])
    rw [hk, goStrip_concat_nonzero q a ha k]

/-- C1 witness at a concrete input. -/
theorem C1_roundtrip_witness :
    roundTrip idBlock idBlock testEncryptor [104, 105] = .ok [104, 105] :=
  C1_roundtrip idBlock idBlock testEncryptor [104, 105] idBlock_contract
    (by decide) (by decide) (by decide)

/-- C2: the decrypt-side padding does not pad to a multiple of 8.  At the
failing input "AAAAAAAAAAAA" (base64 of nine zero bytes) the code computes
`paddingLength = 9 mod 8 = 1` and appends one zero byte, producing a
10-byte buffer, which is not a multiple of 8; the subsequent 16-byte block
loop then panics.  The documented rule (append zero bytes until the length
is a multiple of 8) would instead append seven bytes. -/
theorem C2_decrypt_padding_quirk :
    decodeB64 ("AAAAAAAAAAAA".toList) = some (List.replicate 9 0) ∧
    decryptPad (List.replicate 9 0) = List.replicate 10 0 ∧
    (List.replicate 10 0).length % 8 ≠ 0 ∧
    Decrypt idBlock testEncryptor ("AAAAAAAAAAAA".toList) = .panic :=
  ⟨by decide, by decide, by decide, by decide⟩

/-- C3 counterexample: encrypting the empty string yields the empty string
(zero ciphertext blocks), not the base64 encoding of one encrypted
all-zero 16-byte block. -/
theorem C3_counterexample :
    validAesKeyLen testEncryptor.key = true ∧
    Encrypt idBlock testEncryptor [] = .ok [] ∧
    encodeB64 (idBlock (List.replicate 16 0)) ≠ [] ∧
    Encrypt idBlock testEncryptor [] ≠
      .ok (encodeB64 (idBlock (List.replicate 16 0))) :=
  ⟨by decide, by decide, by decide, by decide⟩

/-- C3 (amended): for any block cipher and well-formed key, Encrypt of the
empty string adds no padding (zero is already a multiple of 16) and yields
the empty base64 string, and DecryptAndStrip of that result returns the
empty string. -/
theorem C3_encrypt_empty (encB decB : List Nat → List Nat) (e : Encryptor)
    (hkey : validAesKeyLen e.key = true) :
    Encrypt encB e [] = .ok [] ∧ roundTrip encB decB e [] = .ok [] := by
  constructor
  · simp only [Encrypt, hkey, if_true]
    rfl
  · simp only [roundTrip, Encrypt, DecryptAndStrip, Decrypt, hkey, if_true]
    rfl

/-- C3 witness at a concrete instance. -/
theorem C3_encrypt_empty_witness :
    Encrypt idBlock testEncryptor [] = .ok [] ∧
    roundTrip idBlock idBlock testEncryptor [] = .ok [] :=
  C3_encrypt_empty idBlock idBlock testEncryptor (by decide)

/-- C8: the derived key is MD5(accessKey ++ MAGIC) ++ MD5(MAGIC ++
password) where MAGIC is the decoded fixed hex constant; the key is always
exactly 32 bytes; and the serial number plays no role in the key. -/
theorem C8_generateKey (md5f : List Nat → List Nat)
    (serial accessKey password : List Nat)
    (hmd5 : ∀ m, (md5f m).length = 16) :
    NewEncryptor md5f serial accessKey password =
      some (Encryptor.mk
        (md5f (accessKey ++ magicBytes) ++ md5f (magicBytes ++ password))) ∧
    (∀ enc, NewEncryptor md5f serial accessKey password = some enc →
      enc.key.length = 32) ∧
    (∀ serial2, NewEncryptor md5f serial2 accessKey password =
      NewEncryptor md5f serial accessKey password) := by
  have hcopy : ∀ src : List Nat, src.length = 16 → copy16 src = src := by
    intro src hs
    rw [copy16, hs]
    simp [List.take_of_length_le (le_of_eq hs)]
  have hval : NewEncryptor md5f serial accessKey password =
      some (Encryptor.mk
        (md5f (accessKey ++ magicBytes) ++ md5f (magicBytes ++ password))) := by
    rw [NewEncryptor, hexDecode_magic, Option.map_some', generateKey,
      hcopy _ (hmd5 _), hcopy _ (hmd5 _)]
  refine ⟨hval, ?_, fun _ => rfl⟩
  intro enc henc
  rw [hval] at henc
  cases henc
  simp [hmd5]

/-- C8 witness at a concrete hash function and concrete credentials. -/
theorem C8_generateKey_witness :
    NewEncryptor (fun _ => List.replicate 16 0) [49] [97] [98] =
      some (Encryptor.mk
        ((fun _ : List Nat => List.replicate 16 0) ([97] ++ magicBytes) ++
          (fun _ : List Nat => List.replicate 16 0) (magicBytes ++ [98]))) ∧
    (∀ enc, NewEncryptor (fun _ => List.replicate 16 0) [49] [97] [98] =
      some enc → enc.key.length = 32) ∧
    (∀ serial2, NewEncryptor (fun _ => List.replicate 16 0) serial2 [97] [98] =
      NewEncryptor (fun _ => List.replicate 16 0) [49] [97] [98]) :=
  C8_generateKey (fun _ => List.replicate 16 0) [49] [97] [98]
    (fun _ => by simp)

/-- C10 counterexample: Decrypt is not total.  On the input "AAAAAAAAAAA="
(base64 of eight zero bytes, so the legacy padding is a no-op) the 16-byte
block loop slices past the end of the 8-byte buffer and panics instead of
returning a plaintext or an error. -/
theorem C10_counterexample :
    validAesKeyLen testEncryptor.key = true ∧
    decodeB64 ("AAAAAAAAAAA=".toList) = some (List.replicate 8 0) ∧
    Decrypt idBlock testEncryptor ("AAAAAAAAAAA=".toList) = .panic :=
  ⟨by decide, by decide, by decide⟩

/-- C10 (amended): classification of Decrypt.  With a well-formed key,
Decrypt returns the base64 EncryptionError exactly on base64-decode
failure; when decoding succeeds it terminates normally iff the decoded
buffer, after the legacy padding, has length a multiple of 16, and panics
(out-of-range block slice) otherwise. -/
theorem C10_decrypt_classification (decB : List Nat → List Nat)
    (e : Encryptor) (data : List Char)
    (hkey : validAesKeyLen e.key = true) :
    (decodeB64 data = none → Decrypt decB e data = .err .base64Err) ∧
    (∀ ct, decodeB64 data = some ct →
      ((decryptPad ct).length % 16 = 0 → ∃ p, Decrypt decB e data = .ok p) ∧
      ((decryptPad ct).length % 16 ≠ 0 → Decrypt decB e data = .panic)) := by
  constructor
  · intro hd
    simp only [Decrypt, hkey, if_true, hd]
  · intro ct hd
    have hcl := cryptBlocks_classify decB (decryptPad ct).length (decryptPad ct) rfl
    constructor
    · intro hmod
      obtain ⟨m, hm⟩ := hcl.1 hmod
      exact ⟨m, by simp only [Decrypt, hkey, if_true, hd, hm]⟩
    · intro hmod
      simp only [Decrypt, hkey, if_true, hd, hcl.2 hmod]

/-- C10 witness at a concrete input: base64-decode failure gives the error
return, and an aligned input decrypts normally. -/
theorem C10_decrypt_classification_witness :
    (decodeB64 ("!".toList) = none →
      Decrypt idBlock testEncryptor ("!".toList) = .err .base64Err) ∧
    (∀ ct, decodeB64 ("!".toList) = some ct →
      ((decryptPad ct).length % 16 = 0 →
        ∃ p, Decrypt idBlock testEncryptor ("!".toList) = .ok p) ∧
      ((decryptPad ct).length % 16 ≠ 0 →
        Decrypt idBlock testEncryptor ("!".toList) = .panic)) :=
  C10_decrypt_classification idBlock testEncryptor ("!".toList) (by decide)

/-! ## Protocol codec (protocol package, message.go) -/

/-- Boolean check that the first list is an initial segment of the
second. -/
def leadsWith : List Char → List Char → Bool
  | [], _ => true
  | _ :: _, [] => false
  | p :: ps, c :: cs => p = c && leadsWith ps cs

/-- Fuel-bounded form of left-to-right non-overlapping substring
replacement; fuel is always supplied as the text length, which bounds the
number of steps. -/
def replaceAllAux (pat rep : List Char) : Nat → List Char → List Char
  | _, [] => []
  | fuel + 1, c :: rest =>
    if pat ≠ [] ∧ leadsWith pat (c :: rest) then
      rep ++ replaceAllAux pat rep fuel ((c :: rest).drop pat.length)
    else
      c :: replaceAllAux pat rep fuel rest
  | 0, l => l

/-- Left-to-right non-overlapping substring replacement, as in Go
strings.ReplaceAll for a nonempty pattern. -/
def replaceAll (pat rep l : List Char) : List Char :=
  replaceAllAux pat rep l.length l

/-- Character expansion of Go html.EscapeString: it escapes exactly the
five characters ampersand, apostrophe, less-than, greater-than and double
quote. -/
def escapeChar5 (c : Char) : List Char :=
  if c = '&' then ['&', 'a', 'm', 'p', ';']
  else if c = '\'' then ['&', '#', '3', '9', ';']
  else if c = '<' then ['&', 'l', 't', ';']
  else if c = '>' then ['&', 'g', 't', ';']
  else if c = '"' then ['&', '#', '3', '4', ';']
  else [c]

/-- Go html.EscapeString. -/
def goEscapeString (l : List Char) : List Char := l.flatMap escapeChar5

/-- Private placeholder used by escapeXMLBody (the characters of the Go
literal between NUL bytes). -/
def crPlaceholder : List Char := ['\x00', 'C', 'R', 'L', 'F', '\x00']

/-- Carriage-return entity followed by a newline. -/
def crEntityLF : List Char := ['&', '#', '1', '3', ';', '\n']

/-- Body escaping: replace every CR by the placeholder, apply
html.EscapeString, then replace the placeholder by the CR entity plus a
newline. -/
def escapeXMLBody (body : List Char) : List Char :=
  replaceAll crPlaceholder crEntityLF
    (goEscapeString (replaceAll ['\r'] crPlaceholder body))

/-- Stanza construction of buildXMPPMessage. -/
def buildXMPPMessage (fromJid toJid body : List Char) : List Char :=
  ("<message from=\"".toList) ++ goEscapeString fromJid ++
    ("\" to=\"".toList) ++ goEscapeString toJid ++
    ("\"><body>".toList) ++ escapeXMLBody body ++
    ("</body></message>".toList)

/-- GET request text of BuildGetMessage. -/
def getBodyText (uri : List Char) : List Char :=
  ("GET ".toList) ++ uri ++ (" HTTP/1.1\rUser-Agent: NefitEasy\r\r".toList)

/-- BuildGetMessage. -/
def buildGetMessage (fromJid toJid uri : List Char) : List Char :=
  buildXMPPMessage fromJid toJid (getBodyText uri)

/-- Fuel-bounded character-data decoding of encoding/xml; the fuel is
always supplied as the text length, which bounds the number of steps. -/
def xmlDecodeAux : Nat → List Char → List Char
  | _, [] => []
  | fuel + 1, c :: rest =>
    if c = '&' then
      if leadsWith ['a', 'm', 'p', ';'] rest then
        '&' :: xmlDecodeAux fuel (rest.drop 4)
      else if leadsWith ['l', 't', ';'] rest then
        '<' :: xmlDecodeAux fuel (rest.drop 3)
      else if leadsWith ['g', 't', ';'] rest then
        '>' :: xmlDecodeAux fuel (rest.drop 3)
      else if leadsWith ['#', '3', '9', ';'] rest then
        '\'' :: xmlDecodeAux fuel (rest.drop 4)
      else if leadsWith ['#', '3', '4', ';'] rest then
        '"' :: xmlDecodeAux fuel (rest.drop 4)
      else if leadsWith ['#', '1', '3', ';'] rest then
        '\r' :: xmlDecodeAux fuel (rest.drop 4)
      else '&' :: xmlDecodeAux fuel rest
    else if c = '\r' then
      if leadsWith ['\n'] rest then '\n' :: xmlDecodeAux fuel (rest.drop 1)
      else '\n' :: xmlDecodeAux fuel rest
    else
      c :: xmlDecodeAux fuel rest
  | 0, l => l

/-- Character-data decoding performed by encoding/xml when unmarshalling a
text element: character and entity references are resolved and raw
carriage returns (alone or in CR LF pairs) are normalized to newlines.
The model is restricted to the entity references this codec emits; other
ampersands are kept verbatim (Go would reject them, but no input produced
by this codec contains any). -/
def xmlDecodeChars (l : List Char) : List Char := xmlDecodeAux l.length l

/-- Rest of the text after the first occurrence of a pattern. -/
def afterSeq (pat : List Char) : List Char → Option (List Char)
  | [] => if pat = [] then some [] else none
  | c :: rest =>
    if leadsWith pat (c :: rest) then some ((c :: rest).drop pat.length)
    else afterSeq pat rest

/-- Text before the first occurrence of a pattern, if the pattern
occurs. -/
def beforeSeq (pat : List Char) : List Char → Option (List Char)
  | [] => if pat = [] then some [] else none
  | c :: rest =>
    if leadsWith pat (c :: rest) then some []
    else (beforeSeq pat rest).map (c :: ·)

/-- ExtractBody: unmarshal the stanza (modelled as taking the text of the
body element and applying the encoding/xml character-data decoding), then
replace CR entities by carriage returns as the Go code does afterwards. -/
def extractBody (xml : List Char) : Option (List Char) :=
  (afterSeq ("<body>".toList) xml).bind (fun afterOpen =>
    (beforeSeq ("</body>".toList) afterOpen).map (fun inner =>
      replaceAll ("&#13;".toList) ['\r'] (xmlDecodeChars inner)))

theorem leadsWith_append_self (p l : List Char) :
    leadsWith p (p ++ l) = true := by
  induction p with
  | nil => rfl
  | cons q qs ih => simp [leadsWith, ih]

theorem leadsWith_cons_false (p0 c : Char) (ps cs : List Char) (h : p0 ≠ c) :
    leadsWith (p0 :: ps) (c :: cs) = false := by
  simp [leadsWith, h]

theorem replaceAllAux_nil (pat rep : List Char) (fuel : Nat) :
    replaceAllAux pat rep fuel [] = [] := by
  cases fuel <;> rfl

theorem replaceAllAux_fuel (pat rep : List Char) :
    ∀ fuel₁ fuel₂ l, l.length ≤ fuel₁ → l.length ≤ fuel₂ →
      replaceAllAux pat rep fuel₁ l = replaceAllAux pat rep fuel₂ l := by
  intro fuel₁
  induction fuel₁ with
  | zero =>
    intro fuel₂ l h1 _
    have : l = [] := List.eq_nil_of_length_eq_zero (by omega)
    subst this
    rw [replaceAllAux_nil, replaceAllAux_nil]
  | succ n ih =>
    intro fuel₂ l h1 h2
    cases l with
    | nil => rw [replaceAllAux_nil, replaceAllAux_nil]
    | cons c rest =>
      cases fuel₂ with
      | zero => simp at h2
      | succ m =>
        simp only [List.length_cons] at h1 h2
        show replaceAllAux pat rep (n + 1) (c :: rest) =
          replaceAllAux pat rep (m + 1) (c :: rest)
        rw [replaceAllAux, replaceAllAux]
        by_cases hcond : pat ≠ [] ∧ leadsWith pat (c :: rest) = true
        · rw [if_pos hcond, if_pos hcond]
          have hpl : 1 ≤ pat.length := by
            cases pat with
            | nil => exact absurd rfl hcond.1
            | cons _ _ => simp
          have hd1 : ((c :: rest).drop pat.length).length ≤ n := by
            simp only [List.length_drop, List.length_cons]
            omega
          have hd2 : ((c :: rest).drop pat.length).length ≤ m := by
            simp only [List.length_drop, List.length_cons]
            omega
          rw [ih m _ hd1 hd2]
        · rw [if_neg hcond, if_neg hcond, ih m rest (by omega) (by omega)]

theorem replaceAll_nomatch (pat rep : List Char) (c : Char) (l : List Char)
    (h : leadsWith pat (c :: l) = false) :
    replaceAll pat rep (c :: l) = c :: replaceAll pat rep l := by
  rw [replaceAll, replaceAll]
  simp only [List.length_cons]
  rw [replaceAllAux, if_neg (by simp [h])]

theorem replaceAll_match (p0 : Char) (ps rep l : List Char) :
    replaceAll (p0 :: ps) rep ((p0 :: ps) ++ l) =
      rep ++ replaceAll (p0 :: ps) rep l := by
  rw [replaceAll, replaceAll]
  simp only [List.cons_append, List.length_cons, List.length_append]
  rw [replaceAllAux]
  rw [if_pos ⟨by simp, by
    have h5 := leadsWith_append_self (p0 :: ps) l
    simp only [List.cons_append] at h5
    exact h5⟩]
  have hdrop : (p0 :: (ps ++ l)).drop (p0 :: ps).length = l := by
    have h6 := List.drop_left (p0 :: ps) l
    simp only [List.cons_append] at h6
    exact h6
  rw [hdrop]
  congr 1
  exact replaceAllAux_fuel (p0 :: ps) rep _ _ l (by omega) (le_refl _)

theorem replaceAll_skip (p0 : Char) (ps rep : List Char) :
    ∀ x y : List Char, p0 ∉ x →
      replaceAll (p0 :: ps) rep (x ++ y) = x ++ replaceAll (p0 :: ps) rep y := by
  intro x
  induction x with
  | nil => simp
  | cons c xs ih =>
    intro y hx
    have hne : p0 ≠ c := fun h => hx (by rw [h]; simp)
    have hxs : p0 ∉ xs := fun h => hx (by simp [h])
    rw [List.cons_append,
      replaceAll_nomatch _ _ _ _ (leadsWith_cons_false p0 c ps _ hne),
      ih y hxs, List.cons_append]

theorem replaceAll_single (p : Char) (rep : List Char) (l : List Char) :
    replaceAll [p] rep l = l.flatMap (fun c => if c = p then rep else [c]) := by
  induction l with
  | nil => rfl
  | cons c rest ih =>
    by_cases hc : c = p
    · subst hc
      have : (c :: rest) = [c] ++ rest := rfl
      rw [this, replaceAll_match c [] rep rest, ih]
      simp
    · rw [replaceAll_nomatch _ _ _ _
        (leadsWith_cons_false p c [] _ (fun h => hc h.symm)), ih]
      simp [hc]

/-- Per-character effect of the whole body-escaping pipeline. -/
def encBodyChar (c : Char) : List Char :=
  if c = '\r' then crEntityLF else escapeChar5 c

theorem nul_not_mem_escapeChar5 (c : Char) (hc : c ≠ '\x00') :
    '\x00' ∉ escapeChar5 c := by
  rw [escapeChar5]
  split_ifs with h1 h2 h3 h4 h5
  · decide
  · decide
  · decide
  · decide
  · decide
  · simp only [List.mem_singleton]
    exact fun h => hc h.symm

theorem escapeXMLBody_flatMap (body : List Char) (hnul : '\x00' ∉ body) :
    escapeXMLBody body = body.flatMap encBodyChar := by
  rw [escapeXMLBody, replaceAll_single, goEscapeString, List.flatMap_assoc]
  induction body with
  | nil => rfl
  | cons c rest ih =>
    have hc : c ≠ '\x00' := fun h => hnul (by rw [h]; simp)
    have hrest : '\x00' ∉ rest := fun h => hnul (by simp [h])
    rw [List.flatMap_cons, List.flatMap_cons]
    by_cases hr : c = '\r'
    · subst hr
      have hseg : (if ('\r' : Char) = '\r' then crPlaceholder else ['\r']).flatMap
          escapeChar5 = crPlaceholder := by decide
      rw [hseg]
      have hm : crPlaceholder = '\x00' :: ['C', 'R', 'L', 'F', '\x00'] := rfl
      rw [hm, replaceAll_match, ← hm, ih hrest]
      rw [encBodyChar, if_pos rfl]
    · have hseg : (if c = '\r' then crPlaceholder else [c]).flatMap
          escapeChar5 = escapeChar5 c := by
        rw [if_neg hr]
        simp
      rw [hseg]
      have hm : crPlaceholder = '\x00' :: ['C', 'R', 'L', 'F', '\x00'] := rfl
      rw [hm, replaceAll_skip _ _ _ _ _ (nul_not_mem_escapeChar5 c hc), ← hm,
        ih hrest, encBodyChar, if_neg hr]

theorem xmlDecodeAux_nil (fuel : Nat) : xmlDecodeAux fuel [] = [] := by
  cases fuel <;> rfl

theorem xmlDecodeAux_fuel :
    ∀ fuel₁ fuel₂ l, l.length ≤ fuel₁ → l.length ≤ fuel₂ →
      xmlDecodeAux fuel₁ l = xmlDecodeAux fuel₂ l := by
  intro fuel₁
  induction fuel₁ with
  | zero =>
    intro fuel₂ l h1 _
    have : l = [] := List.eq_nil_of_length_eq_zero (by omega)
    subst this
    rw [xmlDecodeAux_nil, xmlDecodeAux_nil]
  | succ n ih =>
    intro fuel₂ l h1 h2
    cases l with
    | nil => rw [xmlDecodeAux_nil, xmlDecodeAux_nil]
    | cons c rest =>
      cases fuel₂ with
      | zero => simp at h2
      | succ m =>
        simp only [List.length_cons] at h1 h2
        show xmlDecodeAux (n + 1) (c :: rest) = xmlDecodeAux (m + 1) (c :: rest)
        rw [xmlDecodeAux, xmlDecodeAux]
        split_ifs <;>
          exact congrArg _ (ih m _ (by try simp only [List.length_drop]
                                       omega)
            (by try simp only [List.length_drop]
                omega))

theorem xmlDecodeChars_cons_eq (c : Char) (rest : List Char) :
    xmlDecodeChars (c :: rest) = xmlDecodeAux (rest.length + 1) (c :: rest) := by
  rw [xmlDecodeChars]
  simp only [List.length_cons]

theorem xmlDecode_plain (c : Char) (z : List Char) (h1 : c ≠ '&')
    (h2 : c ≠ '\r') : xmlDecodeChars (c :: z) = c :: xmlDecodeChars z := by
  rw [xmlDecodeChars_cons_eq, xmlDecodeAux, if_neg h1, if_neg h2, xmlDecodeChars]

theorem xmlDecode_nl (z : List Char) :
    xmlDecodeChars ('\n' :: z) = '\n' :: xmlDecodeChars z :=
  xmlDecode_plain '\n' z (by decide) (by decide)

theorem xmlDecode_amp (z : List Char) :
    xmlDecodeChars ('&' :: 'a' :: 'm' :: 'p' :: ';' :: z) =
      '&' :: xmlDecodeChars z := by
  rw [xmlDecodeChars_cons_eq, xmlDecodeAux, if_pos rfl,
    if_pos (by simp [leadsWith]), xmlDecodeChars]
  exact congrArg _ (xmlDecodeAux_fuel _ _ z
    (by simp only [List.length_cons]; omega) (le_refl _))

theorem xmlDecode_lt (z : List Char) :
    xmlDecodeChars ('&' :: 'l' :: 't' :: ';' :: z) =
      '<' :: xmlDecodeChars z := by
  rw [xmlDecodeChars_cons_eq, xmlDecodeAux, if_pos rfl,
    if_neg (by simp [leadsWith]),
    if_pos (by simp [leadsWith]), xmlDecodeChars]
  exact congrArg _ (xmlDecodeAux_fuel _ _ z
    (by simp only [List.length_cons]; omega) (le_refl _))

theorem xmlDecode_gt (z : List Char) :
    xmlDecodeChars ('&' :: 'g' :: 't' :: ';' :: z) =
      '>' :: xmlDecodeChars z := by
  rw [xmlDecodeChars_cons_eq, xmlDecodeAux, if_pos rfl,
    if_neg (by simp [leadsWith]), if_neg (by simp [leadsWith]),
    if_pos (by simp [leadsWith]), xmlDecodeChars]
  exact congrArg _ (xmlDecodeAux_fuel _ _ z
    (by simp only [List.length_cons]; omega) (le_refl _))

theorem xmlDecode_apos (z : List Char) :
    xmlDecodeChars ('&' :: '#' :: '3' :: '9' :: ';' :: z) =
      '\'' :: xmlDecodeChars z := by
  rw [xmlDecodeChars_cons_eq, xmlDecodeAux, if_pos rfl,
    if_neg (by simp [leadsWith]), if_neg (by simp [leadsWith]),
    if_neg (by simp [leadsWith]),
    if_pos (by simp [leadsWith]), xmlDecodeChars]
  exact congrArg _ (xmlDecodeAux_fuel _ _ z
    (by simp only [List.length_cons]; omega) (le_refl _))

theorem xmlDecode_quot (z : List Char) :
    xmlDecodeChars ('&' :: '#' :: '3' :: '4' :: ';' :: z) =
      '"' :: xmlDecodeChars z := by
  rw [xmlDecodeChars_cons_eq, xmlDecodeAux, if_pos rfl,
    if_neg (by simp [leadsWith]), if_neg (by simp [leadsWith]),
    if_neg (by simp [leadsWith]), if_neg (by simp [leadsWith]),
    if_pos (by simp [leadsWith]), xmlDecodeChars]
  exact congrArg _ (xmlDecodeAux_fuel _ _ z
    (by simp only [List.length_cons]; omega) (le_refl _))

theorem xmlDecode_crent (z : List Char) :
    xmlDecodeChars (crEntityLF ++ z) = '\r' :: '\n' :: xmlDecodeChars z := by
  rw [crEntityLF]
  simp only [List.cons_append, List.nil_append]
  rw [xmlDecodeChars_cons_eq, xmlDecodeAux, if_pos rfl,
    if_neg (by simp [leadsWith]), if_neg (by simp [leadsWith]),
    if_neg (by simp [leadsWith]), if_neg (by simp [leadsWith]),
    if_neg (by simp [leadsWith]),
    if_pos (by simp [leadsWith])]
  rw [show (('#' :: '1' :: '3' :: ';' :: '\n' :: z).drop 4) = '\n' :: z from rfl]
  rw [xmlDecodeAux_fuel _ ('\n' :: z).length ('\n' :: z)
    (by simp only [List.length_cons]; omega) (le_refl _)]
  rw [show xmlDecodeAux ('\n' :: z).length ('\n' :: z) = xmlDecodeChars ('\n' :: z)
    from rfl]
  rw [xmlDecode_nl]

theorem xmlDecode_encBody (body : List Char) :
    xmlDecodeChars (body.flatMap encBodyChar) =
      replaceAll ['\r'] ['\r', '\n'] body := by
  induction body with
  | nil => rfl
  | cons c rest ih =>
    rw [List.flatMap_cons]
    by_cases hr : c = '\r'
    · subst hr
      rw [encBodyChar, if_pos rfl, xmlDecode_crent, ih]
      have h2 : ('\r' : Char) :: rest = ['\r'] ++ rest := rfl
      rw [h2, replaceAll_match]
      rfl
    · have hstep : replaceAll ['\r'] ['\r', '\n'] (c :: rest) =
          c :: replaceAll ['\r'] ['\r', '\n'] rest :=
        replaceAll_nomatch _ _ _ _
          (leadsWith_cons_false '\r' c [] _ (fun h => hr h.symm))
      rw [encBodyChar, if_neg hr, escapeChar5]
      by_cases ha : c = '&'
      · rw [if_pos ha]
        simp only [List.cons_append, List.nil_append]
        rw [xmlDecode_amp, ih, hstep, ha]
      by_cases hq : c = '\''
      · rw [if_neg ha, if_pos hq]
        simp only [List.cons_append, List.nil_append]
        rw [xmlDecode_apos, ih, hstep, hq]
      by_cases hl : c = '<'
      · rw [if_neg ha, if_neg hq, if_pos hl]
        simp only [List.cons_append, List.nil_append]
        rw [xmlDecode_lt, ih, hstep, hl]
      by_cases hg : c = '>'
      · rw [if_neg ha, if_neg hq, if_neg hl, if_pos hg]
        simp only [List.cons_append, List.nil_append]
        rw [xmlDecode_gt, ih, hstep, hg]
      by_cases hd : c = '"'
      · rw [if_neg ha, if_neg hq, if_neg hl, if_neg hg, if_pos hd]
        simp only [List.cons_append, List.nil_append]
        rw [xmlDecode_quot, ih, hstep, hd]
      · rw [if_neg ha, if_neg hq, if_neg hl, if_neg hg, if_neg hd,
          List.singleton_append, xmlDecode_plain c _ ha hr, ih, hstep]

theorem afterSeq_stanza (x : List Char) :
    afterSeq ("<body>".toList)
      (("<message from=\"a@h\" to=\"b@h\"><body>".toList) ++ x) = some x := rfl

theorem beforeSeq_skip (p0 : Char) (ps : List Char) :
    ∀ x y : List Char, p0 ∉ x →
      beforeSeq (p0 :: ps) (x ++ y) =
        (beforeSeq (p0 :: ps) y).map (x ++ ·) := by
  intro x
  induction x with
  | nil =>
    intro y _
    simp
  | cons c xs ih =>
    intro y hx
    have hne : p0 ≠ c := fun h => hx (by rw [h]; simp)
    have hxs : p0 ∉ xs := fun h => hx (by simp [h])
    rw [List.cons_append, beforeSeq,
      if_neg (by simp [leadsWith_cons_false p0 c ps _ hne]), ih y hxs]
    simp [Option.map_map, Function.comp_def]

theorem lt_not_mem_encBodyChar (c : Char) : '<' ∉ encBodyChar c := by
  rw [encBodyChar]
  split_ifs with h
  · decide
  · rw [escapeChar5]
    split_ifs with h1 h2 h3 h4 h5
    · decide
    · decide
    · decide
    · decide
    · decide
    · simp only [List.mem_singleton]
      exact fun hx => h3 hx.symm

theorem lt_not_mem_escapeXMLBody (body : List Char) (hnul : '\x00' ∉ body) :
    '<' ∉ escapeXMLBody body := by
  rw [escapeXMLBody_flatMap body hnul]
  intro hmem
  obtain ⟨c, _, hc⟩ := List.mem_flatMap.mp hmem
  exact lt_not_mem_encBodyChar c hc

/-- C4: the GET example.  BuildGetMessage of the example arguments yields
exactly the expected stanza, and the body part is exactly the result of
the three-step transform applied to the raw HTTP text. -/
theorem C4_buildGetMessage :
    buildGetMessage ("a@h".toList) ("b@h".toList) ("/x".toList) =
      ("<message from=\"a@h\" to=\"b@h\"><body>GET /x HTTP/1.1&#13;\nUser-Agent: NefitEasy&#13;\n&#13;\n</body></message>".toList) ∧
    escapeXMLBody (getBodyText ("/x".toList)) =
      ("GET /x HTTP/1.1&#13;\nUser-Agent: NefitEasy&#13;\n&#13;\n".toList) :=
  ⟨by decide, by decide⟩

/-- C9 counterexample: for the body consisting of an ampersand followed by
a carriage return, encoding into a stanza and decoding back yields the
ampersand, the carriage return and an extra newline, not the original
text: the escape step inserts a newline after every CR entity and the
decode path never removes it. -/
theorem C9_counterexample :
    extractBody (buildXMPPMessage ("a@h".toList) ("b@h".toList) ("&\r".toList)) =
      some ("&\r\n".toList) ∧
    ("&\r\n".toList) ≠ ("&\r".toList) :=
  ⟨by decide, by decide⟩

/-- C9 (amended): for every body free of NUL bytes, the extract-body decode
path applied to the encoded stanza returns the original body with every
carriage return replaced by a carriage return plus newline, then with any
remaining literal CR-entity text replaced by carriage returns; in
particular bodies containing a CR are not recovered exactly. -/
theorem C9_encode_decode (body : List Char) (hnul : '\x00' ∉ body) :
    extractBody (buildXMPPMessage ("a@h".toList) ("b@h".toList) body) =
      some (replaceAll ("&#13;".toList) ['\r']
        (replaceAll ['\r'] ['\r', '\n'] body)) := by
  have hsplit : buildXMPPMessage ("a@h".toList) ("b@h".toList) body =
      ("<message from=\"a@h\" to=\"b@h\"><body>".toList) ++
        (escapeXMLBody body ++ ("</body></message>".toList)) := rfl
  rw [extractBody, hsplit, afterSeq_stanza, Option.some_bind]
  have hclose : beforeSeq ("</body>".toList)
      (escapeXMLBody body ++ ("</body></message>".toList)) =
      some (escapeXMLBody body) := by
    rw [show ("</body>".toList) = '<' :: ("/body>".toList) from rfl,
      beforeSeq_skip '<' ("/body>".toList) _ _
        (lt_not_mem_escapeXMLBody body hnul)]
    rw [show beforeSeq ('<' :: ("/body>".toList)) ("</body></message>".toList) =
      some [] from rfl]
    simp
  rw [hclose, Option.map_some']
  rw [escapeXMLBody_flatMap body hnul, xmlDecode_encBody]

/-- C9 witness at a concrete body containing a CR and XML specials. -/
theorem C9_encode_decode_witness :
    extractBody (buildXMPPMessage ("a@h".toList) ("b@h".toList)
      ("a&b<\">'\rc".toList)) =
      some (replaceAll ("&#13;".toList) ['\r']
        (replaceAll ['\r'] ['\r', '\n'] ("a&b<\">'\rc".toList))) :=
  C9_encode_decode ("a&b<\">'\rc".toList) (by decide)

/-! ## HTTP response parsing (ParseHTTPResponse) -/

/-- ASCII white space of Go strings.TrimSpace. -/
def isGoSpace (c : Char) : Bool :=
  c = ' ' || c = '\t' || c = '\n' || c = '\x0b' || c = '\x0c' || c = '\r'

/-- Go strings.TrimSpace on ASCII text. -/
def trimSpace (l : List Char) : List Char :=
  ((l.dropWhile isGoSpace).reverse.dropWhile isGoSpace).reverse

/-- Split at the first occurrence of a separator character. -/
def splitOnFirst (sep : Char) : List Char → Option (List Char × List Char)
  | [] => none
  | c :: rest =>
    if c = sep then some ([], rest)
    else (splitOnFirst sep rest).map (fun p => (c :: p.1, p.2))

/-- Go strings.SplitN with a single-space separator and limit 3. -/
def splitNSpace3 (l : List Char) : List (List Char) :=
  match splitOnFirst ' ' l with
  | none => [l]
  | some (a, r) =>
    match splitOnFirst ' ' r with
    | none => [a, r]
    | some (b, r2) => [a, b, r2]

/-- Decimal digit accumulation; fails on any non-digit. -/
def parseDigitsAux : List Char → Nat → Option Nat
  | [], acc => some acc
  | c :: rest, acc =>
    if '0' ≤ c ∧ c ≤ '9' then parseDigitsAux rest (acc * 10 + (c.toNat - 48))
    else none

/-- Go strconv.Atoi (overflow ignored: statuses are small). -/
def goAtoi (l : List Char) : Option Int :=
  match l with
  | [] => none
  | '+' :: rest =>
    if rest = [] then none else (parseDigitsAux rest 0).map Int.ofNat
  | '-' :: rest =>
    if rest = [] then none
    else (parseDigitsAux rest 0).map (fun n => -(Int.ofNat n))
  | _ => (parseDigitsAux l 0).map Int.ofNat

/-- Read one line up to and including a newline, as bufio ReadString;
returns none at end of input without a newline. -/
def goReadLine : List Char → Option (List Char × List Char)
  | [] => none
  | '\n' :: rest => some (['\n'], rest)
  | c :: rest => (goReadLine rest).map (fun p => (c :: p.1, p.2))

/-- Last-write-wins insertion into the header map, modelled as an
association list with unique keys. -/
def upsertHeader (k v : List Char) :
    List (List Char × List Char) → List (List Char × List Char)
  | [] => [(k, v)]
  | (k2, v2) :: rest =>
    if k2 = k then (k2, v) :: rest else (k2, v2) :: upsertHeader k v rest

/-- Header lookup. -/
def lookupHeader (k : List Char) :
    List (List Char × List Char) → Option (List Char)
  | [] => none
  | (k2, v2) :: rest => if k2 = k then some v2 else lookupHeader k rest

/-- Parse one header line: lines without a colon are silently skipped. -/
def parseHeaderLine (t : List Char) (hs : List (List Char × List Char)) :
    List (List Char × List Char) :=
  match splitOnFirst ':' t with
  | none => hs
  | some (k, v) => upsertHeader (trimSpace k) (trimSpace v) hs

/-- Header block loop: read lines until a blank line or end of input; the
remaining text is the body.  Fuel is always supplied as the text length,
which bounds the number of lines. -/
def headersLoopAux : Nat → List Char →
    List (List Char × List Char) → List (List Char × List Char) × List Char
  | _, [], hs => (hs, [])
  | fuel + 1, l, hs =>
    match goReadLine l with
    | some (ln, rest) =>
      let t := trimSpace ln
      if t = [] then (hs, rest)
      else headersLoopAux fuel rest (parseHeaderLine t hs)
    | none =>
      let t := trimSpace l
      if t = [] then (hs, []) else (parseHeaderLine t hs, [])
  | 0, l, hs => (hs, l)

/-- Parsed HTTP-over-XMPP response. -/
structure HTTPResponse where
  statusCode : Int
  status : List Char
  headers : List (List Char × List Char)
  body : List Char
  contentType : List Char
deriving DecidableEq, Repr

/-- ParseHTTPResponse: restore carriage returns from entities, normalize
newlines to CR LF, parse the status line (at least two space-separated
tokens, numeric code), the header block and the remaining body. -/
def parseHTTPResponse (data : List Char) : Option HTTPResponse :=
  let d := replaceAll ['\n'] ['\r', '\n'] (replaceAll ("&#13;".toList) ['\r'] data)
  match goReadLine d with
  | none => none
  | some (ln, rest) =>
    let parts := splitNSpace3 (trimSpace ln)
    if parts.length < 2 then none
    else
      match goAtoi (parts.getD 1 []) with
      | none => none
      | some code =>
        let status := if parts.length = 3 then parts.getD 2 [] else []
        let hsrem := headersLoopAux rest.length rest []
        some ⟨code, status, hsrem.1, hsrem.2,
          (lookupHeader ("Content-Type".toList) hsrem.1).getD []⟩

/-! ## Client retry controller (Client.Get, Client.Put) -/

/-- Errors surfacing from one request attempt. -/
inductive GoErr
  | deadline
  | httpError (code : Int) (reason : List Char)
  | other (text : List Char)
deriving DecidableEq, Repr

/-- Decimal rendering of an integer, as fmt %d. -/
def intToChars (i : Int) : List Char :=
  if i < 0 then '-' :: Nat.toDigits 10 (-i).toNat
  else Nat.toDigits 10 i.toNat

/-- Error text, as produced by Error() on the modelled errors; the HTTP
rejection error is the fmt.Errorf("HTTP error %d: %s", ...) of
executePut/executeGet. -/
def errText : GoErr → List Char
  | .deadline => "context deadline exceeded".toList
  | .httpError code reason =>
    ("HTTP error ".toList) ++ intToChars code ++ (": ".toList) ++ reason
  | .other t => t

/-- Go strings.Contains. -/
def containsSeq (pat : List Char) : List Char → Bool
  | [] => pat = []
  | c :: rest => leadsWith pat (c :: rest) || containsSeq pat rest

/-- Retry predicate of Client.Put: deadline-exceeded, or any error whose
text contains the substring "timeout". -/
def retryablePut (e : GoErr) : Bool :=
  (e = .deadline) || containsSeq ("timeout".toList) (errText e)

/-- Result of one attempt, as delivered by the request queue. -/
inductive AttemptResult (α : Type)
  | ok (v : α)
  | err (e : GoErr)
deriving DecidableEq

/-- Result of Client.Get: a value, or the final wrapped failure whose
message reports `reportedAttempts` attempts. -/
inductive GetResult (α : Type)
  | success (v : α)
  | failure (reportedAttempts : Nat) (wrapped : Option GoErr)
deriving DecidableEq, Repr

/-- Retry loop of Client.Get over an oracle of attempt outcomes; fuel is
always supplied as maxRetries + 1 - attempt, mirroring the
`for attempt := 0; attempt <= maxRetries` loop.  Retries happen only on a
deadline-exceeded error while the outer context is not done; the final
failure wraps the last error and reports the configured MaxRetries in its
message. -/
def getLoopAux {α : Type} (maxRetries : Nat) (outcome : Nat → AttemptResult α)
    (outerDone : Nat → Bool) :
    Nat → Nat → Option GoErr → Nat × GetResult α
  | 0, attempt, lastErr => (attempt, .failure maxRetries lastErr)
  | fuel + 1, attempt, _lastErr =>
    match outcome attempt with
    | .ok v => (attempt + 1, .success v)
    | .err e =>
      if outerDone attempt then (attempt + 1, .failure maxRetries (some e))
      else if e ≠ .deadline then (attempt + 1, .failure maxRetries (some e))
      else getLoopAux maxRetries outcome outerDone fuel (attempt + 1) (some e)

/-- Client.Get retry loop from the first attempt; the returned number is
the count of attempts actually executed. -/
def clientGet {α : Type} (maxRetries : Nat) (outcome : Nat → AttemptResult α)
    (outerDone : Nat → Bool) : Nat × GetResult α :=
  getLoopAux maxRetries outcome outerDone (maxRetries + 1) 0 none

/-- Result of Client.Put. -/
inductive PutResult
  | success
  | ctxCancelled
  | failure (reportedAttempts : Nat) (wrapped : Option GoErr)
deriving DecidableEq, Repr

/-- Retry loop of Client.Put; before every retry (attempt > 0) the
backoff wait can be interrupted by outer-context cancellation, and a
failed attempt is retried only when `retryablePut` holds and the outer
context is not done.  The final failure message reports MaxRetries + 1
attempts. -/
def putLoopAux (maxRetries : Nat) (outcome : Nat → AttemptResult Unit)
    (outerDoneWait outerDone : Nat → Bool) :
    Nat → Nat → Option GoErr → Nat × PutResult
  | 0, attempt, lastErr => (attempt, .failure (maxRetries + 1) lastErr)
  | fuel + 1, attempt, _lastErr =>
    if 0 < attempt ∧ outerDoneWait attempt then (attempt, .ctxCancelled)
    else
      match outcome attempt with
      | .ok _ => (attempt + 1, .success)
      | .err e =>
        if outerDone attempt then
          (attempt + 1, .failure (maxRetries + 1) (some e))
        else if ¬ retryablePut e then
          (attempt + 1, .failure (maxRetries + 1) (some e))
        else putLoopAux maxRetries outcome outerDoneWait outerDone fuel
          (attempt + 1) (some e)

/-- Client.Put retry loop from the first attempt. -/
def clientPut (maxRetries : Nat) (outcome : Nat → AttemptResult Unit)
    (outerDoneWait outerDone : Nat → Bool) : Nat × PutResult :=
  putLoopAux maxRetries outcome outerDoneWait outerDone (maxRetries + 1) 0 none

/-! ## Correlation and dispatch (Client.handleChatMessage) -/

/-- Decoded JSON value (the fragment of encoding/json needed here). -/
inductive GoJson
  | str (s : List Char)
  | obj (fields : List (List Char × GoJson))
  | otherJson

/-- Payload attached to a queued push notification. -/
inductive PushData
  | json (j : GoJson)
  | raw (s : List Nat)

/-- Queued push notification. -/
structure PushNotice where
  uri : List Char
  data : PushData

/-- Lookup of a top-level field in a decoded JSON object. -/
def jsonLookup (k : List Char) : List (List Char × GoJson) → Option GoJson
  | [] => none
  | (k2, v) :: rest => if k2 = k then some v else jsonLookup k rest

/-- Non-blocking offer of a response to a one-slot channel: an empty slot
is filled, a full one is left unchanged (the waiter is skipped). -/
def offerResponse (resp : HTTPResponse) (slot : Option HTTPResponse) :
    Option HTTPResponse :=
  match slot with
  | none => some resp
  | some r => some r

/-- notifyResponse: offer the response to every pending waiter without
blocking. -/
def notifyResponse (resp : HTTPResponse)
    (pending : List (List Char × Option HTTPResponse)) :
    List (List Char × Option HTTPResponse) :=
  pending.map (fun p => (p.1, offerResponse resp p.2))

/-- handlePushNotification: decrypt only when status 200 with a nonempty
body, JSON-decode when the content type says so (falling back to the raw
text), recover a URI from a top-level string `id` field, and enqueue
unless the 100-slot channel is full (then drop). -/
def handlePushNotification (decB : List Nat → List Nat) (e : Encryptor)
    (jsonParse : List Nat → Option GoJson) (resp : HTTPResponse)
    (chan : List PushNotice) : CryptoResult (List PushNotice) :=
  if resp.body ≠ [] ∧ resp.statusCode = 200 then
    match Decrypt decB e resp.body with
    | .ok plain =>
      let data : PushData :=
        if resp.contentType = ("application/json".toList) then
          match jsonParse plain with
          | some j => .json j
          | none => .raw plain
        else .raw plain
      let uri : List Char :=
        match data with
        | .json (.obj fields) =>
          match jsonLookup ("id".toList) fields with
          | some (.str s) => s
          | _ => []
        | _ => []
      if chan.length < 100 then .ok (chan ++ [⟨uri, data⟩]) else .ok chan
    | .err _ => .ok chan
    | .panic => .panic
  else .ok chan

/-- Inbound chat message. -/
structure ChatMsg where
  mtype : List Char
  text : List Char

/-- Mutable client state touched by message handling. -/
structure ClientState where
  pendingRequests : List (List Char × Option HTTPResponse)
  pendingErrors : List (List Char × Option GoErr)
  pushChan : List PushNotice

/-- handleChatMessage: error-typed messages notify every error channel;
otherwise a nonempty text is parsed, and the response is broadcast to the
pending waiters when the table is nonempty or handled as a push
notification when it is empty. -/
def handleChatMessage (decB : List Nat → List Nat) (e : Encryptor)
    (jsonParse : List Nat → Option GoJson) (msg : ChatMsg)
    (st : ClientState) : CryptoResult ClientState :=
  if msg.mtype = ("error".toList) then
    .ok { st with
      pendingErrors := st.pendingErrors.map (fun p => (p.1,
        match p.2 with
        | none => some (.other (("XMPP error: ".toList) ++ msg.text))
        | some e0 => some e0)) }
  else if msg.text ≠ [] then
    match parseHTTPResponse msg.text with
    | none => .ok st
    | some resp =>
      if 0 < st.pendingRequests.length then
        .ok { st with pendingRequests := notifyResponse resp st.pendingRequests }
      else
        match handlePushNotification decB e jsonParse resp st.pushChan with
        | .ok chan => .ok { st with pushChan := chan }
        | .err x => .err x
        | .panic => .panic
  else .ok st

theorem getLoopAux_all_deadline {α : Type} (maxRetries : Nat)
    (outcome : Nat → AttemptResult α) (outerDone : Nat → Bool)
    (hout : ∀ i, i ≤ maxRetries → outcome i = .err .deadline)
    (hdone : ∀ i, outerDone i = false) :
    ∀ fuel attempt lastErr, attempt + fuel = maxRetries + 1 → 1 ≤ fuel →
      getLoopAux maxRetries outcome outerDone fuel attempt lastErr =
        (maxRetries + 1, .failure maxRetries (some .deadline)) := by
  intro fuel
  induction fuel with
  | zero =>
    intro attempt lastErr _ h2
    omega
  | succ n ih =>
    intro attempt lastErr h1 _
    rw [getLoopAux, hout attempt (by omega), hdone attempt]
    simp only [Bool.false_eq_true, if_false, ne_eq, not_true_eq_false,
      AttemptResult.err.injEq, reduceCtorEq, ite_false]
    cases n with
    | zero =>
      rw [getLoopAux]
      have h3 : attempt + 1 = maxRetries + 1 := by omega
      rw [h3]
    | succ k => exact ih (attempt + 1) (some .deadline) (by omega) (by omega)

/-- C5 counterexample: with MaxRetries = 1 and every attempt timing out,
two attempts are executed but the wrapped error reports only 1 attempt
(the configured MaxRetries), not the number of attempts made. -/
theorem C5_counterexample :
    clientGet 1 (fun _ => (.err .deadline : AttemptResult Unit))
      (fun _ => false) = (2, .failure 1 (some .deadline)) ∧ (1 : Nat) ≠ 2 :=
  ⟨by decide, by decide⟩

/-- C5 (amended): when every attempt fails with deadline-exceeded and the
outer context is never cancelled, Client.Get executes exactly
MaxRetries + 1 attempts and fails with an error wrapping the last timeout
error; the attempt figure in the message is the configured MaxRetries,
one less than the number of attempts actually made. -/
theorem C5_get_retries {α : Type} (maxRetries : Nat)
    (outcome : Nat → AttemptResult α) (outerDone : Nat → Bool)
    (hout : ∀ i, i ≤ maxRetries → outcome i = .err .deadline)
    (hdone : ∀ i, outerDone i = false) :
    clientGet maxRetries outcome outerDone =
      (maxRetries + 1, .failure maxRetries (some .deadline)) := by
  rw [clientGet]
  exact getLoopAux_all_deadline maxRetries outcome outerDone hout hdone
    (maxRetries + 1) 0 none (by omega) (by omega)

/-- C5 witness at a concrete configuration. -/
theorem C5_get_retries_witness :
    clientGet 2 (fun _ => (.err .deadline : AttemptResult Unit))
      (fun _ => false) = (3, .failure 2 (some .deadline)) :=
  C5_get_retries 2 (fun _ => .err .deadline) (fun _ => false)
    (fun _ _ => rfl) (fun _ => rfl)

/-- C6 counterexample: a first-attempt RemoteRejection whose reason text
contains the substring "timeout" (HTTP 500 with reason "timeout") is
retried: with MaxRetries = 1, two attempts are executed, not one. -/
theorem C6_counterexample :
    clientPut 1 (fun _ => .err (.httpError 500 ("timeout".toList)))
      (fun _ => false) (fun _ => false) =
      (2, .failure 2 (some (.httpError 500 ("timeout".toList)))) ∧
    (2 : Nat) ≠ 1 :=
  ⟨by decide, by decide⟩

/-- C6 (amended): a PUT whose first attempt yields a RemoteRejection
(HTTP status at least 300) makes exactly one attempt, provided the
rendered error text "HTTP error code: reason" does not contain the
substring "timeout"; when it does contain "timeout" the rejection is
retried (see the counterexample). -/
theorem C6_put_rejection (maxRetries : Nat)
    (outcome : Nat → AttemptResult Unit) (outerDoneWait outerDone : Nat → Bool)
    (code : Int) (reason : List Char)
    (h0 : outcome 0 = .err (.httpError code reason))
    (_hcode : 300 ≤ code)
    (hto : containsSeq ("timeout".toList)
      (errText (.httpError code reason)) = false) :
    clientPut maxRetries outcome outerDoneWait outerDone =
      (1, .failure (maxRetries + 1) (some (.httpError code reason))) := by
  rw [clientPut, putLoopAux]
  rw [if_neg (by simp)]
  rw [h0]
  have hretry : retryablePut (.httpError code reason) = false := by
    rw [retryablePut, hto]
    simp
  cases hd : outerDone 0 with
  | true => simp
  | false => simp [hretry]

/-- C6 witness: a 400 Bad Request rejection on the first attempt gives
exactly one attempt. -/
theorem C6_put_rejection_witness :
    clientPut 5 (fun _ => .err (.httpError 400 ("Bad Request".toList)))
      (fun _ => false) (fun _ => false) =
      (1, .failure 6 (some (.httpError 400 ("Bad Request".toList)))) :=
  C6_put_rejection 5 (fun _ => .err (.httpError 400 ("Bad Request".toList)))
    (fun _ => false) (fun _ => false) 400 ("Bad Request".toList) rfl
    (by decide) (by decide)

/-- C7: for an inbound chat message that is not error-typed, has nonempty
text, and parses as an HTTP response: when the pending-waiters table is
nonempty the response is offered non-blockingly to every waiter (every
empty one-slot channel is filled with the response, every full one is
left unchanged and merely skipped, and the push queue is untouched); when
the table is empty the state changes exactly as the push-notification
handler dictates. -/
theorem C7_dispatch (decB : List Nat → List Nat) (e : Encryptor)
    (jsonParse : List Nat → Option GoJson) (msg : ChatMsg) (st : ClientState)
    (resp : HTTPResponse)
    (hmt : msg.mtype ≠ ("error".toList)) (htext : msg.text ≠ [])
    (hparse : parseHTTPResponse msg.text = some resp) :
    (st.pendingRequests ≠ [] →
      handleChatMessage decB e jsonParse msg st =
        .ok { st with pendingRequests := notifyResponse resp st.pendingRequests } ∧
      (notifyResponse resp st.pendingRequests).length =
        st.pendingRequests.length ∧
      (∀ id slot, (id, slot) ∈ st.pendingRequests →
        (id, match slot with
             | none => some resp
             | some r => some r) ∈ notifyResponse resp st.pendingRequests)) ∧
    (st.pendingRequests = [] →
      (∀ chan, handlePushNotification decB e jsonParse resp st.pushChan =
          .ok chan →
        handleChatMessage decB e jsonParse msg st =
          .ok { st with pushChan := chan }) ∧
      (handlePushNotification decB e jsonParse resp st.pushChan = .panic →
        handleChatMessage decB e jsonParse msg st = .panic)) := by
  have hbase : handleChatMessage decB e jsonParse msg st =
      (if 0 < st.pendingRequests.length then
        .ok { st with pendingRequests := notifyResponse resp st.pendingRequests }
      else
        match handlePushNotification decB e jsonParse resp st.pushChan with
        | .ok chan => .ok { st with pushChan := chan }
        | .err x => .err x
        | .panic => .panic) := by
    rw [handleChatMessage, if_neg hmt, if_pos htext, hparse]
  constructor
  · intro hne
    have hlen : 0 < st.pendingRequests.length := List.length_pos.mpr hne
    refine ⟨by rw [hbase, if_pos hlen], by rw [notifyResponse, List.length_map], ?_⟩
    intro id slot hmem
    have : (id, offerResponse resp slot) ∈ notifyResponse resp st.pendingRequests := by
      rw [notifyResponse]
      exact List.mem_map.mpr ⟨(id, slot), hmem, rfl⟩
    cases slot with
    | none => exact this
    | some r => exact this
  · intro hempty
    have hlen : ¬ 0 < st.pendingRequests.length := by
      rw [hempty]
      simp
    constructor
    · intro chan hchan
      rw [hbase, if_neg hlen, hchan]
    · intro hpanic
      rw [hbase, if_neg hlen, hpanic]

/-- C7 witness: a concrete parseable 200 response offered to a table with
one empty and one full waiter slot. -/
theorem C7_dispatch_witness :
    handleChatMessage idBlock testEncryptor (fun _ => none)
      (ChatMsg.mk ("chat".toList) ("HTTP/1.1 200 OK\n\n".toList))
      (ClientState.mk [(("r1".toList), none),
        (("r2".toList), some (HTTPResponse.mk 204 [] [] [] []))] [] []) =
      .ok { ClientState.mk [(("r1".toList), none),
        (("r2".toList), some (HTTPResponse.mk 204 [] [] [] []))] [] [] with
          pendingRequests := notifyResponse
            (HTTPResponse.mk 200 ("OK".toList) [] [] [])
            [(("r1".toList), none),
             (("r2".toList), some (HTTPResponse.mk 204 [] [] [] []))] } ∧
    (notifyResponse (HTTPResponse.mk 200 ("OK".toList) [] [] [])
      [(("r1".toList), none),
       (("r2".toList), some (HTTPResponse.mk 204 [] [] [] []))]).length =
      ([(("r1".toList), (none : Option HTTPResponse)),
        (("r2".toList), some (HTTPResponse.mk 204 [] [] [] []))]).length ∧
    (∀ id slot, (id, slot) ∈
        [(("r1".toList), (none : Option HTTPResponse)),
         (("r2".toList), some (HTTPResponse.mk 204 [] [] [] []))] →
      (id, match slot with
           | none => some (HTTPResponse.mk 200 ("OK".toList) [] [] [])
           | some r => some r) ∈
        notifyResponse (HTTPResponse.mk 200 ("OK".toList) [] [] [])
          [(("r1".toList), none),
           (("r2".toList), some (HTTPResponse.mk 204 [] [] [] []))]) :=
  (C7_dispatch idBlock testEncryptor (fun _ => none)
    (ChatMsg.mk ("chat".toList) ("HTTP/1.1 200 OK\n\n".toList))
    (ClientState.mk [(("r1".toList), none),
      (("r2".toList), some (HTTPResponse.mk 204 [] [] [] []))] [] [])
    (HTTPResponse.mk 200 ("OK".toList) [] [] [])
    (by decide) (by decide) (by decide)).1 (by decide)

end Nefit
